import Mathlib

/-!
Shallow embedding of the `file_cleaner` deduplication program
(`src/main.rs`) and verification of its specification.

The program scans one directory, buckets files by an integer key decoded
from their first `IDSIZE` bytes, compares full contents within a bucket
and deletes later byte-identical duplicates, keeping first-seen
representatives.  Disk state, the bucket map and the two counters are
modelled explicitly; the outcomes of the fallible file-system operations
are supplied by an oracle `Env` so that behaviour under I/O failures can
be stated and proved.
-/

namespace FileCleaner

/-- A path is an abstract identifier of one directory entry. -/
abbrev Path := Nat

/-- A file's content is its byte sequence; a byte is modelled as a `Nat`
(the program only ever compares bytes for equality). -/
abbrev Content := List Nat

/-- The grouping key type: `type ID = usize` in the source. -/
abbrev ID := Nat

/-- `const IDSIZE: usize = size_of::<ID>()`, 8 on the 64-bit targets the
program is built for. -/
def IDSIZE : Nat := 8

/-- I/O error kinds the program distinguishes: `ErrorKind::Interrupted`
drives the retry loop, every other kind is only propagated. -/
inductive ErrorKind where
  | interrupted
  | notFound
  | unexpectedEof
  | other (code : Nat)
deriving DecidableEq

/-- The `retry_interrupts!` macro re-issues a fallible expression while it
returns an interrupted error, breaking out of the loop at the first other
outcome.  The successive outcomes of the retried expression are modelled
as a list of attempts; `none` means every listed attempt was interrupted
(the loop is still running). -/
def retry_interrupts {α : Type} : List (Except ErrorKind α) → Option (Except ErrorKind α)
  | [] => none
  | .ok x :: _ => some (.ok x)
  | .error e :: rest =>
      if e = .interrupted then retry_interrupts rest else some (.error e)

/-- Outcome oracle for the fallible file-system operations performed
during a scan.  Interrupted errors are absorbed here: `retry_interrupts!`
turns a finite burst of interruptions into the first non-interrupted
outcome, which is what the oracle reports. -/
structure Env where
  /-- Whether `File::open` plus `read_exact` in `read_id` avoids errors
  other than the file being absent or shorter than `IDSIZE` bytes. -/
  readIdOk : Path → Bool
  /-- Whether `fs::read` on a present file succeeds. -/
  readOk : Path → Bool
  /-- Outcome of `remove_file` (after interrupt retries): `none` is
  success, `some e` is failure with error `e`. -/
  removeErr : Path → Option ErrorKind

/-- The failure-free oracle: every read succeeds, every removal succeeds. -/
def okEnv : Env where
  readIdOk := fun _ => true
  readOk := fun _ => true
  removeErr := fun _ => none

/-- `usize::from_ne_bytes` on a little-endian target: the first byte is
least significant. -/
def fromNeBytes : List Nat → Nat
  | [] => 0
  | b :: rest => b % 256 + 256 * fromNeBytes rest

/-- The grouping key of a content that has at least `IDSIZE` bytes. -/
def keyOf (c : Content) : ID := fromNeBytes (c.take IDSIZE)

/-- `read_id`: open the file, read exactly `IDSIZE` bytes, decode them in
native byte order.  A file that is absent fails at `File::open`; a present
file shorter than `IDSIZE` bytes makes `read_exact` fail with
`UnexpectedEof` (the partially filled zeroed buffer is never decoded); any
other I/O failure is reported by the oracle. -/
def read_id (fs : Path → Option Content) (env : Env) (p : Path) : Except ErrorKind ID :=
  match fs p with
  | none => .error .notFound
  | some c =>
      if env.readIdOk p then
        if c.length < IDSIZE then .error .unexpectedEof
        else .ok (keyOf c)
      else .error (.other 0)

/-- `fs::read`: the file's entire byte content, or an error when the file
is absent or the oracle reports an I/O failure. -/
def readAll (fs : Path → Option Content) (env : Env) (p : Path) : Except ErrorKind Content :=
  match fs p with
  | none => .error .notFound
  | some c => if env.readOk p then .ok c else .error (.other 1)

/-- The comparison loop of `scan_file` over a bucket's existing paths in
insertion order: read each existing path, on failure continue to the next
one, and report whether some successfully read content equals `data`. -/
def bucketHasMatch (fs : Path → Option Content) (env : Env) (data : Content) :
    List Path → Bool
  | [] => false
  | old :: rest =>
      match readAll fs env old with
      | .error _ => bucketHasMatch fs env data rest
      | .ok other => if other = data then true else bucketHasMatch fs env data rest

/-- The program state: the directory's files, the duplicate index `MAP`,
the counters `SCANNED` and `DELETED`, and the sequence of error lines
printed to standard error. -/
structure State where
  fs : Path → Option Content
  map : ID → Option (List Path)
  scanned : Nat
  deleted : Nat
  errs : List ErrorKind

/-- `scan_file`: extract the key (skip on failure); insert a singleton
bucket when the key is new; otherwise read the candidate's content (skip
on failure) and walk the bucket: on the first match delete the candidate
(incrementing `DELETED` on success, printing the error on failure) and
stop; when no member matches, append the candidate to the bucket. -/
def scan_file (env : Env) (st : State) (cur : Path) : State :=
  match read_id st.fs env cur with
  | .error _ => st
  | .ok id =>
    match st.map id with
    | none => { st with map := fun k => if k = id then some [cur] else st.map k }
    | some paths =>
      match readAll st.fs env cur with
      | .error _ => st
      | .ok data =>
        if bucketHasMatch st.fs env data paths then
          match env.removeErr cur with
          | none =>
              { st with fs := fun q => if q = cur then none else st.fs q,
                        deleted := st.deleted + 1 }
          | some err => { st with errs := st.errs ++ [err] }
        else
          { st with map := fun k => if k = id then some (paths ++ [cur]) else st.map k }

/-- The body of the loop in `remove_duplicates`: scan one file, then
increment `SCANNED` (and print it). -/
def scanStep (env : Env) (st : State) (cur : Path) : State :=
  let st' := scan_file env st cur
  { st' with scanned := st'.scanned + 1 }

/-- `remove_duplicates`: fold the loop body over the listed paths in
order (the initial status line and the final `deleted` line do not change
the state). -/
def remove_duplicates (env : Env) (st : State) (paths : List Path) : State :=
  paths.foldl (scanStep env) st

/-- The state at process start: the directory's files on disk, the empty
duplicate index, both counters zero, nothing on standard error. -/
def initState (fs : Path → Option Content) : State :=
  { fs := fs, map := fun _ => none, scanned := 0, deleted := 0, errs := [] }

/-- One whole engine run over a directory listing. -/
def run (env : Env) (fs : Path → Option Content) (paths : List Path) : State :=
  remove_duplicates env (initState fs) paths

/-- `read_dir(dir)?.flatten()`: the listing yields a sequence of entry
results; `flatten` keeps the successful entries' paths and silently drops
entries that errored. -/
def listingPaths (entries : List (Except ErrorKind Path)) : List Path :=
  entries.filterMap fun e =>
    match e with
    | .ok p => some p
    | .error _ => none

/-- `main`: opening the directory listing at all can fail, which aborts
the run with that error; otherwise the engine runs over the flattened
listing. -/
def mainRun (env : Env) (fs : Path → Option Content)
    (dirListing : Except ErrorKind (List (Except ErrorKind Path))) :
    Except ErrorKind State :=
  match dirListing with
  | .error e => .error e
  | .ok entries => .ok (run env fs (listingPaths entries))

instance instDecEqExcept {ε α : Type} [DecidableEq ε] [DecidableEq α] :
    DecidableEq (Except ε α)
  | .error e1, .error e2 =>
      if h : e1 = e2 then .isTrue (by rw [h])
      else .isFalse fun hh => h (by injection hh)
  | .error _, .ok _ => .isFalse fun hh => Except.noConfusion hh
  | .ok _, .error _ => .isFalse fun hh => Except.noConfusion hh
  | .ok a1, .ok a2 =>
      if h : a1 = a2 then .isTrue (by rw [h])
      else .isFalse fun hh => h (by injection hh)

/-- The first path of `l` whose content on the initial disk `fs0` is
exactly `c` — the first-seen representative of content `c`. -/
def firstWith (fs0 : Path → Option Content) (c : Content) (l : List Path) : Option Path :=
  l.find? fun q => decide (fs0 q = some c)

/-- Invariant of a failure-free run relative to the initial disk `fs0`,
after the paths `processed` have been handled: files are only ever
deleted, never modified; bucket members are processed, still on disk,
and carry the bucket's key; bucket contents are pairwise distinct; every
processed keyed content has a representative in its bucket; and exactly
the first-seen path of each keyed content survives. -/
structure Inv (fs0 : Path → Option Content) (processed : List Path) (st : State) : Prop where
  untouched : ∀ p, p ∉ processed → st.fs p = fs0 p
  subfs : ∀ p, st.fs p = fs0 p ∨ st.fs p = none
  mem : ∀ k bkt, st.map k = some bkt → ∀ p, p ∈ bkt →
      p ∈ processed ∧ st.fs p = fs0 p ∧ ∃ c, fs0 p = some c ∧ IDSIZE ≤ c.length ∧ keyOf c = k
  distinct : ∀ k bkt, st.map k = some bkt → bkt.Pairwise fun p q => fs0 p ≠ fs0 q
  rep : ∀ p ∈ processed, ∀ c, fs0 p = some c → IDSIZE ≤ c.length →
      ∃ bkt, st.map (keyOf c) = some bkt ∧ ∃ q, q ∈ bkt ∧ fs0 q = some c
  first : ∀ p ∈ processed, ∀ c, fs0 p = some c → IDSIZE ≤ c.length →
      (firstWith fs0 c processed = some p → st.fs p = some c) ∧
      (firstWith fs0 c processed ≠ some p → st.fs p = none)

/-- Weak invariant holding for every oracle: bucket members are already
processed paths that are still on disk. -/
def AliveInv (processed : List Path) (st : State) : Prop :=
  ∀ k bkt, st.map k = some bkt → ∀ p, p ∈ bkt → p ∈ processed ∧ ∃ c, st.fs p = some c

/-- Eight zero bytes: a content of exactly key width, with key `0`. -/
def cTwin : Content := [0, 0, 0, 0, 0, 0, 0, 0]

/-- A longer content sharing `cTwin`'s first eight bytes: same key,
different bytes. -/
def cClash : Content := [0, 0, 0, 0, 0, 0, 0, 0, 1]

/-- Three bytes: shorter than the key width. -/
def cShort : Content := [1, 2, 3]

/-- A directory of two byte-identical files at paths `0` and `1`. -/
def fsTwin : Path → Option Content := fun p => if p ≤ 1 then some cTwin else none

/-- A directory of two files with equal keys but different contents. -/
def fsClash : Path → Option Content := fun p =>
  if p = 0 then some cTwin else if p = 1 then some cClash else none

/-- A directory holding one three-byte file at path `0`. -/
def fsShort : Path → Option Content := fun p => if p = 0 then some cShort else none

/-- An oracle under which every content read of path `0` fails and
everything else succeeds. -/
def envBadRead : Env where
  readIdOk := fun _ => true
  readOk := fun p => decide (0 < p)
  removeErr := fun _ => none

/-- An oracle under which removing path `1` fails with error code `7` and
everything else succeeds. -/
def envRemoveFail : Env where
  readIdOk := fun _ => true
  readOk := fun _ => true
  removeErr := fun p => if p = 1 then some (.other 7) else none

/-- A mid-run state over `fsTwin`: path `0` scanned and registered as the
sole member of bucket `0`. -/
def stMidTwin : State where
  fs := fsTwin
  map := fun k => if k = 0 then some [0] else none
  scanned := 1
  deleted := 0
  errs := []

lemma remove_duplicates_nil (env : Env) (st : State) :
    remove_duplicates env st [] = st := rfl

lemma remove_duplicates_cons (env : Env) (st : State) (p : Path) (l : List Path) :
    remove_duplicates env st (p :: l) = remove_duplicates env (scanStep env st p) l := rfl

lemma scan_file_scanned (env : Env) (st : State) (cur : Path) :
    (scan_file env st cur).scanned = st.scanned := by
  unfold scan_file
  repeat' split
  all_goals rfl

lemma scan_file_deleted_le (env : Env) (st : State) (cur : Path) :
    (scan_file env st cur).deleted ≤ st.deleted + 1 := by
  unfold scan_file
  repeat' split
  all_goals simp

lemma scan_file_fs_other (env : Env) (st : State) (cur p : Path) (hne : p ≠ cur) :
    (scan_file env st cur).fs p = st.fs p := by
  unfold scan_file
  repeat' split
  all_goals simp [hne]

lemma scanStep_scanned (env : Env) (st : State) (cur : Path) :
    (scanStep env st cur).scanned = st.scanned + 1 := by
  simp [scanStep, scan_file_scanned]

lemma remove_duplicates_scanned (env : Env) (st : State) (l : List Path) :
    (remove_duplicates env st l).scanned = st.scanned + l.length := by
  induction l generalizing st with
  | nil => simp [remove_duplicates_nil]
  | cons p rest ih =>
      rw [remove_duplicates_cons, ih, scanStep_scanned, List.length_cons]
      omega

lemma remove_duplicates_deleted_le (env : Env) (st : State) (l : List Path)
    (h : st.deleted ≤ st.scanned) :
    (remove_duplicates env st l).deleted ≤ (remove_duplicates env st l).scanned := by
  induction l generalizing st with
  | nil => simpa [remove_duplicates_nil] using h
  | cons p rest ih =>
      rw [remove_duplicates_cons]
      refine ih (scanStep env st p) ?_
      have h1 := scan_file_deleted_le env st p
      have h2 := scanStep_scanned env st p
      have h3 : (scanStep env st p).deleted = (scan_file env st p).deleted := rfl
      omega

/-- C5: the `scanned` counter increments exactly once per path yielded by
the directory listing, whatever the outcome of that path's processing, so
after the run it equals the number of yielded paths. -/
theorem scanned_counts_every_listed_path (env : Env) (fs : Path → Option Content)
    (paths : List Path) : (run env fs paths).scanned = paths.length := by
  simp [run, remove_duplicates_scanned, initState]

/-- C9: at the initial status emission and after each processed file, the
`deleted` counter never exceeds the `scanned` counter. -/
theorem deleted_le_scanned (env : Env) (fs : Path → Option Content)
    (paths : List Path) (i : Nat) :
    (remove_duplicates env (initState fs) (paths.take i)).deleted ≤
      (remove_duplicates env (initState fs) (paths.take i)).scanned := by
  refine remove_duplicates_deleted_le env (initState fs) (paths.take i) ?_
  simp [initState]

lemma read_id_ok_elim (fs : Path → Option Content) (env : Env) (p : Path) (id : ID)
    (h : read_id fs env p = .ok id) :
    ∃ c, fs p = some c ∧ IDSIZE ≤ c.length ∧ keyOf c = id := by
  unfold read_id at h
  split at h
  · cases h
  · rename_i c hp
    split at h
    · split at h
      · cases h
      · rename_i hok hlen
        injection h with h'
        exact ⟨c, hp, by omega, h'⟩
    · cases h

lemma readAll_ok_elim (fs : Path → Option Content) (env : Env) (p : Path) (c : Content)
    (h : readAll fs env p = .ok c) : fs p = some c := by
  unfold readAll at h
  split at h
  · cases h
  · rename_i c' hp
    split at h
    · injection h with h'
      rw [hp, h']
    · cases h

lemma scan_file_elim (motive : State → Prop) (env : Env) (st : State) (cur : Path)
    (hskip : motive st)
    (hnew : ∀ id, read_id st.fs env cur = .ok id → st.map id = none →
      motive { st with map := fun k => if k = id then some [cur] else st.map k })
    (hdel : ∀ id paths data, read_id st.fs env cur = .ok id → st.map id = some paths →
      readAll st.fs env cur = .ok data → bucketHasMatch st.fs env data paths = true →
      env.removeErr cur = none →
      motive { st with fs := fun q => if q = cur then none else st.fs q,
                       deleted := st.deleted + 1 })
    (herr : ∀ id paths data e, read_id st.fs env cur = .ok id → st.map id = some paths →
      readAll st.fs env cur = .ok data → bucketHasMatch st.fs env data paths = true →
      env.removeErr cur = some e → motive { st with errs := st.errs ++ [e] })
    (happ : ∀ id paths data, read_id st.fs env cur = .ok id → st.map id = some paths →
      readAll st.fs env cur = .ok data → bucketHasMatch st.fs env data paths = false →
      motive { st with map := fun k => if k = id then some (paths ++ [cur]) else st.map k }) :
    motive (scan_file env st cur) := by
  unfold scan_file
  split
  · exact hskip
  · rename_i id h1
    split
    · rename_i h2
      exact hnew id h1 h2
    · rename_i paths h2
      split
      · exact hskip
      · rename_i data h3
        split
        · rename_i h4
          split
          · rename_i h5
            exact hdel id paths data h1 h2 h3 h4 h5
          · rename_i e h5
            exact herr id paths data e h1 h2 h3 h4 h5
        · rename_i h4
          exact happ id paths data h1 h2 h3 (by simpa using h4)

lemma bucketHasMatch_true_exists (fs : Path → Option Content) (env : Env) (data : Content)
    (bkt : List Path) (h : bucketHasMatch fs env data bkt = true) :
    ∃ p ∈ bkt, fs p = some data := by
  induction bkt with
  | nil => simp [bucketHasMatch] at h
  | cons old rest ih =>
      unfold bucketHasMatch at h
      split at h
      · obtain ⟨p, hp, hfs⟩ := ih h
        exact ⟨p, List.mem_cons_of_mem _ hp, hfs⟩
      · rename_i other h3
        split at h
        · rename_i heq
          subst heq
          exact ⟨old, List.mem_cons_self _ _, readAll_ok_elim fs env old other h3⟩
        · obtain ⟨p, hp, hfs⟩ := ih h
          exact ⟨p, List.mem_cons_of_mem _ hp, hfs⟩

lemma ite_map_elim (k id : ID) (v : Option (List Path)) (m : ID → Option (List Path))
    (bkt : List Path) (h : (if k = id then v else m k) = some bkt) :
    (k = id ∧ v = some bkt) ∨ (k ≠ id ∧ m k = some bkt) := by
  by_cases hkk : k = id
  · rw [if_pos hkk] at h; exact Or.inl ⟨hkk, h⟩
  · rw [if_neg hkk] at h; exact Or.inr ⟨hkk, h⟩

lemma scanStep_fs (env : Env) (st : State) (cur : Path) :
    (scanStep env st cur).fs = (scan_file env st cur).fs := rfl

lemma scanStep_map (env : Env) (st : State) (cur : Path) :
    (scanStep env st cur).map = (scan_file env st cur).map := rfl

lemma scanStep_deleted (env : Env) (st : State) (cur : Path) :
    (scanStep env st cur).deleted = (scan_file env st cur).deleted := rfl

lemma short_skip_aux (env : Env) (l : List Path) (st : State) (p : Path) (c : Content)
    (hshort : c.length < IDSIZE)
    (h : st.fs p = some c ∧ ∀ k bkt, st.map k = some bkt → p ∉ bkt) :
    (remove_duplicates env st l).fs p = some c ∧
      ∀ k bkt, (remove_duplicates env st l).map k = some bkt → p ∉ bkt := by
  induction l generalizing st with
  | nil => simpa [remove_duplicates_nil] using h
  | cons cur rest ih =>
      rw [remove_duplicates_cons]
      refine ih (scanStep env st cur) ?_
      rw [scanStep_fs, scanStep_map]
      refine scan_file_elim
        (fun s => s.fs p = some c ∧ ∀ k bkt, s.map k = some bkt → p ∉ bkt)
        env st cur h ?_ ?_ ?_ ?_
      · intro id h1 h2
        obtain ⟨c', hc', hlen, -⟩ := read_id_ok_elim _ _ _ _ h1
        have hne : p ≠ cur := by
          intro he
          rw [←he, h.1] at hc'
          injection hc' with h''
          subst h''
          omega
        refine ⟨h.1, ?_⟩
        intro k bkt hk hp
        have hk' : (if k = id then some [cur] else st.map k) = some bkt := hk
        rcases ite_map_elim k id _ _ _ hk' with ⟨-, hv⟩ | ⟨-, hv⟩
        · injection hv with hv'
          rw [←hv'] at hp
          simp at hp
          exact hne hp
        · exact h.2 k bkt hv hp
      · intro id paths data h1 h2 h3 h4 h5
        obtain ⟨c', hc', hlen, -⟩ := read_id_ok_elim _ _ _ _ h1
        have hne : p ≠ cur := by
          intro he
          rw [←he, h.1] at hc'
          injection hc' with h''
          subst h''
          omega
        refine ⟨?_, h.2⟩
        show (if p = cur then none else st.fs p) = some c
        rw [if_neg hne]
        exact h.1
      · intro id paths data e h1 h2 h3 h4 h5
        exact ⟨h.1, h.2⟩
      · intro id paths data h1 h2 h3 h4
        obtain ⟨c', hc', hlen, -⟩ := read_id_ok_elim _ _ _ _ h1
        have hne : p ≠ cur := by
          intro he
          rw [←he, h.1] at hc'
          injection hc' with h''
          subst h''
          omega
        refine ⟨h.1, ?_⟩
        intro k bkt hk hp
        have hk' : (if k = id then some (paths ++ [cur]) else st.map k) = some bkt := hk
        rcases ite_map_elim k id _ _ _ hk' with ⟨hkk, hv⟩ | ⟨-, hv⟩
        · injection hv with hv'
          rw [←hv'] at hp
          subst hkk
          rcases List.mem_append.mp hp with hold | hcur
          · exact h.2 _ paths h2 hold
          · simp at hcur
            exact hne hcur
        · exact h.2 k bkt hv hp

/-- C3: a file with fewer than `IDSIZE` bytes always fails key
extraction: it is never deleted (its content is intact after the run) and
its path never enters any bucket of the duplicate index. -/
theorem short_files_never_deleted_nor_bucketed (env : Env) (fs : Path → Option Content)
    (paths : List Path) (p : Path) (c : Content)
    (hfs : fs p = some c) (hshort : c.length < IDSIZE) :
    (run env fs paths).fs p = some c ∧
      ∀ k bkt, (run env fs paths).map k = some bkt → p ∉ bkt := by
  refine short_skip_aux env paths (initState fs) p c hshort ⟨hfs, ?_⟩
  intro k bkt hk
  cases hk

/-- Witness for C3 at a three-byte file. -/
theorem short_files_witness :
    fsShort 0 = some cShort ∧ cShort.length < IDSIZE ∧
      ((run okEnv fsShort [0]).fs 0 = some cShort ∧
        ∀ k bkt, (run okEnv fsShort [0]).map k = some bkt → 0 ∉ bkt) :=
  ⟨by decide, by decide,
    short_files_never_deleted_nor_bucketed okEnv fsShort [0] 0 cShort (by decide) (by decide)⟩

/-- C6: when the candidate's content matches an existing bucket member,
the candidate is not appended to the bucket whether its deletion succeeds
or fails; successful deletion removes the file and increments `deleted`;
failed deletion prints exactly one error line, leaves the file and the
counters alone, and the scan moves on. -/
theorem matched_candidate_never_bucketed (env : Env) (st : State) (cur : Path)
    (id : ID) (bkt : List Path) (data : Content)
    (h1 : read_id st.fs env cur = .ok id)
    (h2 : st.map id = some bkt)
    (h3 : readAll st.fs env cur = .ok data)
    (h4 : bucketHasMatch st.fs env data bkt = true) :
    (scan_file env st cur).map = st.map ∧
      (env.removeErr cur = none →
        (scan_file env st cur).fs cur = none ∧
        (scan_file env st cur).deleted = st.deleted + 1 ∧
        (scan_file env st cur).errs = st.errs) ∧
      (∀ e, env.removeErr cur = some e →
        (scan_file env st cur).fs = st.fs ∧
        (scan_file env st cur).errs = st.errs ++ [e] ∧
        (scan_file env st cur).deleted = st.deleted) := by
  have hres : scan_file env st cur =
      match env.removeErr cur with
      | none => { st with fs := fun q => if q = cur then none else st.fs q,
                          deleted := st.deleted + 1 }
      | some err => { st with errs := st.errs ++ [err] } := by
    simp only [scan_file, h1, h2, h3, h4, if_true]
  rw [hres]
  rcases h5 : env.removeErr cur with _ | e
  · refine ⟨rfl, fun _ => ⟨?_, rfl, rfl⟩, fun e he => ?_⟩
    · simp
    · cases he
  · refine ⟨rfl, fun hn => ?_, fun e' he => ?_⟩
    · cases hn
    · injection he with he'
      subst he'
      exact ⟨rfl, rfl, rfl⟩

/-- Witness for C6: over `fsTwin`, path `0` is bucketed and removal of the
matching path `1` fails with error code `7`. -/
theorem matched_candidate_witness :
    read_id stMidTwin.fs envRemoveFail 1 = .ok 0 ∧
      stMidTwin.map 0 = some [0] ∧
      (scan_file envRemoveFail stMidTwin 1).map = stMidTwin.map ∧
      (∀ e, envRemoveFail.removeErr 1 = some e →
        (scan_file envRemoveFail stMidTwin 1).fs = stMidTwin.fs ∧
        (scan_file envRemoveFail stMidTwin 1).errs = stMidTwin.errs ++ [e] ∧
        (scan_file envRemoveFail stMidTwin 1).deleted = stMidTwin.deleted) := by
  have h := matched_candidate_never_bucketed envRemoveFail stMidTwin 1 0 [0] cTwin
    (by decide) (by decide) (by decide) (by decide)
  exact ⟨by decide, by decide, h.1, h.2.2⟩

/-- C8: the retry wrapper re-issues the operation through any prefix of
interruption-class failures and returns the first non-interrupted outcome
unchanged, be it a success or any other error. -/
theorem retry_returns_first_noninterrupted {α : Type} (l1 l2 : List (Except ErrorKind α))
    (r : Except ErrorKind α)
    (hpre : ∀ a ∈ l1, a = .error .interrupted)
    (hr : r ≠ .error .interrupted) :
    retry_interrupts (l1 ++ r :: l2) = some r := by
  induction l1 with
  | nil =>
      rcases r with e | x
      · have he : e ≠ .interrupted := fun h => hr (by rw [h])
        simp [retry_interrupts, he]
      · rfl
  | cons a rest ih =>
      have ha : a = .error .interrupted := hpre a (List.mem_cons_self a rest)
      subst ha
      have hrest : ∀ b ∈ rest, b = .error .interrupted :=
        fun b hb => hpre b (List.mem_cons_of_mem _ hb)
      simpa [retry_interrupts] using ih hrest

/-- Witness for C8: one interruption, then a success. -/
theorem retry_witness :
    (∀ a ∈ ([.error .interrupted] : List (Except ErrorKind Nat)), a = .error .interrupted) ∧
      retry_interrupts ([.error .interrupted] ++ (.ok 5 : Except ErrorKind Nat) :: []) =
        some (.ok 5) :=
  ⟨by decide, retry_returns_first_noninterrupted [.error .interrupted] [] (.ok 5)
    (by decide) (by decide)⟩

/-- C10: a directory entry that errors during listing iteration is
silently dropped before reaching the engine — the run over a listing with
an error entry equals the run without it — while failure to open the
listing at all aborts with that error. -/
theorem listing_entry_errors_ignored (env : Env) (fs : Path → Option Content)
    (e : ErrorKind) (l1 l2 : List (Except ErrorKind Path)) :
    mainRun env fs (.error e) = .error e ∧
      mainRun env fs (.ok (l1 ++ .error e :: l2)) = mainRun env fs (.ok (l1 ++ l2)) := by
  constructor
  · rfl
  · simp [mainRun, listingPaths, List.filterMap_append, List.filterMap_cons]

lemma aliveInv_weaken (processed : List Path) (cur : Path) (st : State)
    (h : AliveInv processed st) : AliveInv (processed ++ [cur]) st :=
  fun k bkt hk p hp =>
    ⟨List.mem_append_left _ (h k bkt hk p hp).1, (h k bkt hk p hp).2⟩

lemma aliveInv_step (env : Env) (st : State) (cur : Path) (processed : List Path)
    (hcur : cur ∉ processed) (h : AliveInv processed st) :
    AliveInv (processed ++ [cur]) (scanStep env st cur) := by
  have h' : AliveInv (processed ++ [cur]) (scan_file env st cur) := by
    refine scan_file_elim (fun s => AliveInv (processed ++ [cur]) s) env st cur
      (aliveInv_weaken processed cur st h) ?_ ?_ ?_ ?_
    · intro id h1 h2
      intro k bkt hk p hp
      have hk' : (if k = id then some [cur] else st.map k) = some bkt := hk
      obtain ⟨c, hc, -, -⟩ := read_id_ok_elim _ _ _ _ h1
      rcases ite_map_elim k id _ _ _ hk' with ⟨-, hv⟩ | ⟨-, hv⟩
      · injection hv with hv'
        rw [←hv'] at hp
        simp at hp
        subst hp
        exact ⟨List.mem_append_right _ (List.mem_singleton_self p), c, hc⟩
      · exact aliveInv_weaken processed cur st h k bkt hv p hp
    · intro id paths data h1 h2 h3 h4 h5
      intro k bkt hk p hp
      obtain ⟨hpmem, c, hcp⟩ := h k bkt hk p hp
      have hne : p ≠ cur := fun he => hcur (he ▸ hpmem)
      refine ⟨List.mem_append_left _ hpmem, c, ?_⟩
      show (if p = cur then none else st.fs p) = some c
      rw [if_neg hne]
      exact hcp
    · intro id paths data e h1 h2 h3 h4 h5
      intro k bkt hk p hp
      obtain ⟨hpmem, c, hcp⟩ := h k bkt hk p hp
      exact ⟨List.mem_append_left _ hpmem, c, hcp⟩
    · intro id paths data h1 h2 h3 h4
      intro k bkt hk p hp
      have hk' : (if k = id then some (paths ++ [cur]) else st.map k) = some bkt := hk
      rcases ite_map_elim k id _ _ _ hk' with ⟨hkk, hv⟩ | ⟨-, hv⟩
      · injection hv with hv'
        rw [←hv'] at hp
        subst hkk
        rcases List.mem_append.mp hp with hold | hc
        · obtain ⟨hpmem, c, hcp⟩ := h _ paths h2 p hold
          exact ⟨List.mem_append_left _ hpmem, c, hcp⟩
        · simp at hc
          subst hc
          exact ⟨List.mem_append_right _ (List.mem_singleton_self p),
            data, readAll_ok_elim _ _ _ _ h3⟩
      · obtain ⟨hpmem, c, hcp⟩ := h k bkt hv p hp
        exact ⟨List.mem_append_left _ hpmem, c, hcp⟩
  exact h'

lemma aliveInv_run (env : Env) (l : List Path) (processed : List Path) (st : State)
    (hnd : (processed ++ l).Nodup) (h : AliveInv processed st) :
    AliveInv (processed ++ l) (remove_duplicates env st l) := by
  induction l generalizing processed st with
  | nil => simpa [remove_duplicates_nil] using h
  | cons cur rest ih =>
      have hcur : cur ∉ processed := by
        rcases List.nodup_append.mp hnd with ⟨-, -, hdisj⟩
        intro hmem
        exact hdisj hmem (List.mem_cons_self cur rest)
      have hnd' : ((processed ++ [cur]) ++ rest).Nodup := by
        rw [List.append_assoc]
        exact hnd
      have hstep := aliveInv_step env st cur processed hcur h
      have := ih (processed ++ [cur]) (scanStep env st cur) hnd' hstep
      rw [List.append_assoc] at this
      rw [remove_duplicates_cons]
      exact this

/-- C7: during a run over a duplicate-free directory listing, every path
held in any bucket of the duplicate index points at a file that is still
on disk — deleted files are never appended, and bucketed paths are never
deleted. -/
theorem index_paths_never_deleted (env : Env) (fs : Path → Option Content)
    (paths : List Path) (hnd : paths.Nodup) (i : Nat) (k : ID)
    (bkt : List Path) (p : Path)
    (hk : (remove_duplicates env (initState fs) (paths.take i)).map k = some bkt)
    (hp : p ∈ bkt) :
    ∃ c, (remove_duplicates env (initState fs) (paths.take i)).fs p = some c := by
  have hnd' : (([] : List Path) ++ paths.take i).Nodup := by
    simpa using (paths.take_sublist i).nodup hnd
  have h0 : AliveInv [] (initState fs) := fun k bkt hk => by cases hk
  have hall := aliveInv_run env (paths.take i) [] (initState fs) hnd' h0
  exact (hall k bkt hk p hp).2

/-- Witness for C7 after one processed file over `fsTwin`. -/
theorem index_paths_witness :
    ([0, 1] : List Path).Nodup ∧
      (remove_duplicates okEnv (initState fsTwin) ([0, 1].take 1)).map 0 = some [0] ∧
      ∃ c, (remove_duplicates okEnv (initState fsTwin) ([0, 1].take 1)).fs 0 = some c :=
  ⟨by decide, by decide,
    index_paths_never_deleted okEnv fsTwin [0, 1] (by decide) 1 0 [0] 0
      (by decide) (by decide)⟩

lemma firstWith_append (fs0 : Path → Option Content) (c : Content) (l l' : List Path) :
    firstWith fs0 c (l ++ l') = (firstWith fs0 c l).or (firstWith fs0 c l') :=
  List.find?_append

lemma firstWith_append_left (fs0 : Path → Option Content) (c : Content) (l l' : List Path)
    (x : Path) (h : firstWith fs0 c l = some x) :
    firstWith fs0 c (l ++ l') = some x := by
  rw [firstWith_append, h]
  rfl

lemma firstWith_none_append (fs0 : Path → Option Content) (c : Content) (l l' : List Path)
    (h : firstWith fs0 c l = none) :
    firstWith fs0 c (l ++ l') = firstWith fs0 c l' := by
  rw [firstWith_append, h]
  rfl

lemma firstWith_mem_isSome (fs0 : Path → Option Content) (c : Content) (l : List Path)
    (p : Path) (hp : p ∈ l) (hc : fs0 p = some c) :
    ∃ x, firstWith fs0 c l = some x := by
  have : (l.find? fun q => decide (fs0 q = some c)).isSome :=
    List.find?_isSome.mpr ⟨p, hp, by simp [hc]⟩
  exact Option.isSome_iff_exists.mp this

lemma firstWith_some (fs0 : Path → Option Content) (c : Content) (l : List Path)
    (x : Path) (h : firstWith fs0 c l = some x) : x ∈ l ∧ fs0 x = some c :=
  ⟨List.mem_of_find?_eq_some h, by have := List.find?_some h; simpa using this⟩

lemma firstWith_eq_none (fs0 : Path → Option Content) (c : Content) (l : List Path)
    (h : ∀ x ∈ l, fs0 x ≠ some c) : firstWith fs0 c l = none :=
  List.find?_eq_none.mpr fun x hx => by simpa using h x hx

lemma firstWith_singleton (fs0 : Path → Option Content) (c : Content) (cur : Path)
    (hc : fs0 cur = some c) : firstWith fs0 c [cur] = some cur := by
  unfold firstWith
  exact List.find?_cons_of_pos _ (by simp [hc])

lemma bucketHasMatch_okEnv_iff (fs : Path → Option Content) (data : Content)
    (bkt : List Path) (halive : ∀ p ∈ bkt, ∃ cp, fs p = some cp) :
    bucketHasMatch fs okEnv data bkt = true ↔ ∃ p ∈ bkt, fs p = some data := by
  induction bkt with
  | nil => simp [bucketHasMatch]
  | cons old rest ih =>
      obtain ⟨cp, hcp⟩ := halive old (List.mem_cons_self _ _)
      have hread : readAll fs okEnv old = .ok cp := by simp [readAll, hcp, okEnv]
      have hrest := ih fun p hp => halive p (List.mem_cons_of_mem _ hp)
      simp only [bucketHasMatch, hread]
      by_cases heq : cp = data
      · subst heq
        simp only [if_pos rfl]
        constructor
        · intro _
          exact ⟨old, List.mem_cons_self _ _, hcp⟩
        · intro _
          rfl
      · rw [if_neg heq, hrest]
        constructor
        · rintro ⟨p, hp, hfs⟩
          exact ⟨p, List.mem_cons_of_mem _ hp, hfs⟩
        · rintro ⟨p, hp, hfs⟩
          rcases List.mem_cons.mp hp with rfl | hp'
          · rw [hcp] at hfs
            injection hfs with h''
            exact absurd h'' heq
          · exact ⟨p, hp', hfs⟩

lemma inv_skip_extend (fs0 : Path → Option Content) (processed : List Path) (st : State)
    (cur : Path) (hcur : cur ∉ processed)
    (hnokey : ∀ c, fs0 cur = some c → c.length < IDSIZE)
    (h : Inv fs0 processed st) : Inv fs0 (processed ++ [cur]) st := by
  refine ⟨?_, h.subfs, ?_, h.distinct, ?_, ?_⟩
  · intro p hp
    exact h.untouched p fun hm => hp (List.mem_append_left _ hm)
  · intro k bkt hk p hp
    obtain ⟨m1, m2, m3⟩ := h.mem k bkt hk p hp
    exact ⟨List.mem_append_left _ m1, m2, m3⟩
  · intro p hp c hc hw
    rcases List.mem_append.mp hp with hp' | hp'
    · exact h.rep p hp' c hc hw
    · simp at hp'
      subst hp'
      have := hnokey c hc
      omega
  · intro p hp c hc hw
    rcases List.mem_append.mp hp with hp' | hp'
    · obtain ⟨x, hx⟩ := firstWith_mem_isSome fs0 c processed p hp' hc
      rw [firstWith_append_left fs0 c processed [cur] x hx]
      constructor
      · intro heq
        injection heq with heq'
        exact (h.first p hp' c hc hw).1 (heq' ▸ hx)
      · intro hne
        exact (h.first p hp' c hc hw).2 fun heq => hne (hx.symm.trans heq)
    · simp at hp'
      subst hp'
      have := hnokey c hc
      omega

lemma okEnv_removeErr (p : Path) : okEnv.removeErr p = none := rfl

lemma inv_scan_file (fs0 : Path → Option Content) (processed : List Path) (st : State)
    (cur : Path) (hcur : cur ∉ processed) (h : Inv fs0 processed st) :
    Inv fs0 (processed ++ [cur]) (scan_file okEnv st cur) := by
  have hfs_cur : st.fs cur = fs0 cur := h.untouched cur hcur
  rcases hc0 : fs0 cur with _ | c
  · have hskip : scan_file okEnv st cur = st := by
      simp [scan_file, read_id, hfs_cur, hc0]
    rw [hskip]
    exact inv_skip_extend fs0 processed st cur hcur
      (fun c hc => by rw [hc0] at hc; cases hc) h
  · by_cases hw : c.length < IDSIZE
    · have hskip : scan_file okEnv st cur = st := by
        simp [scan_file, read_id, hfs_cur, hc0, hw, okEnv]
      rw [hskip]
      refine inv_skip_extend fs0 processed st cur hcur (fun c' hc' => ?_) h
      rw [hc0] at hc'
      injection hc' with h''
      rw [←h'']
      exact hw
    · have hwge : IDSIZE ≤ c.length := by omega
      have hkey : read_id st.fs okEnv cur = .ok (keyOf c) := by
        simp [read_id, hfs_cur, hc0, hw, okEnv]
      have hread : readAll st.fs okEnv cur = .ok c := by
        simp [readAll, hfs_cur, hc0, okEnv]
      rcases hmap : st.map (keyOf c) with _ | bkt
      · -- the key is new: a singleton bucket is inserted
        have hst : scan_file okEnv st cur =
            { st with map := fun k => if k = keyOf c then some [cur] else st.map k } := by
          simp only [scan_file, hkey, hmap]
        rw [hst]
        have hnorep : ∀ p ∈ processed, fs0 p ≠ some c := by
          intro p hp hpc
          obtain ⟨bkt0, hbkt0, -⟩ := h.rep p hp c hpc hwge
          rw [hmap] at hbkt0
          cases hbkt0
        refine ⟨?_, h.subfs, ?_, ?_, ?_, ?_⟩
        · intro p hp
          exact h.untouched p fun hm => hp (List.mem_append_left _ hm)
        · intro k bkt' hk p hp
          have hk' : (if k = keyOf c then some [cur] else st.map k) = some bkt' := hk
          rcases ite_map_elim _ _ _ _ _ hk' with ⟨hkk, hv⟩ | ⟨-, hv⟩
          · subst hkk
            injection hv with hv'
            rw [←hv'] at hp
            simp at hp
            subst hp
            exact ⟨List.mem_append_right _ (by simp), hfs_cur, c, hc0, hwge, rfl⟩
          · obtain ⟨m1, m2, m3⟩ := h.mem k bkt' hv p hp
            exact ⟨List.mem_append_left _ m1, m2, m3⟩
        · intro k bkt' hk
          have hk' : (if k = keyOf c then some [cur] else st.map k) = some bkt' := hk
          rcases ite_map_elim _ _ _ _ _ hk' with ⟨-, hv⟩ | ⟨-, hv⟩
          · injection hv with hv'
            rw [←hv']
            exact List.pairwise_singleton _ _
          · exact h.distinct k bkt' hv
        · intro p hp c' hc' hw'
          rcases List.mem_append.mp hp with hp' | hp'
          · obtain ⟨bkt0, hbkt0, q, hq, hqc⟩ := h.rep p hp' c' hc' hw'
            by_cases hkk : keyOf c' = keyOf c
            · rw [hkk, hmap] at hbkt0
              cases hbkt0
            · refine ⟨bkt0, ?_, q, hq, hqc⟩
              show (if keyOf c' = keyOf c then some [cur] else st.map (keyOf c')) = some bkt0
              rw [if_neg hkk]
              exact hbkt0
          · simp at hp'
            subst hp'
            rw [hc0] at hc'
            injection hc' with h''
            subst h''
            refine ⟨[p], ?_, p, by simp, hc0⟩
            show (if keyOf c = keyOf c then some [p] else st.map (keyOf c)) = some [p]
            rw [if_pos rfl]
        · intro p hp c' hc' hw'
          rcases List.mem_append.mp hp with hp' | hp'
          · obtain ⟨x, hx⟩ := firstWith_mem_isSome fs0 c' processed p hp' hc'
            rw [firstWith_append_left fs0 c' processed [cur] x hx]
            constructor
            · intro heq
              injection heq with heq'
              exact (h.first p hp' c' hc' hw').1 (heq' ▸ hx)
            · intro hne
              exact (h.first p hp' c' hc' hw').2 fun heq => hne (hx.symm.trans heq)
          · simp at hp'
            subst hp'
            rw [hc0] at hc'
            injection hc' with h''
            subst h''
            have hnone : firstWith fs0 c processed = none := firstWith_eq_none fs0 c processed hnorep
            have hext : firstWith fs0 c (processed ++ [p]) = some p := by
              rw [firstWith_none_append fs0 c processed [p] hnone]
              exact firstWith_singleton fs0 c p hc0
            rw [hext]
            constructor
            · intro _
              exact hfs_cur.trans hc0
            · intro hne
              exact absurd rfl hne
      · -- the key already has a bucket
        have halive : ∀ p ∈ bkt, ∃ cp, st.fs p = some cp := by
          intro p hp
          obtain ⟨-, m2, cp, hcp, -, -⟩ := h.mem _ _ hmap p hp
          exact ⟨cp, m2.trans hcp⟩
        rcases hmatch : bucketHasMatch st.fs okEnv c bkt with _ | _
        · -- no member matches: the candidate is appended
          have hst : scan_file okEnv st cur =
              { st with map := fun k => if k = keyOf c then some (bkt ++ [cur]) else st.map k } := by
            simp [scan_file, hkey, hmap, hread, hmatch]
          rw [hst]
          have hnomatch : ∀ r ∈ bkt, fs0 r ≠ some c := by
            intro r hr hrc
            have hm : bucketHasMatch st.fs okEnv c bkt = true :=
              (bucketHasMatch_okEnv_iff st.fs c bkt halive).mpr
                ⟨r, hr, ((h.mem _ _ hmap r hr).2.1).trans hrc⟩
            rw [hmatch] at hm
            cases hm
          have hnorep : ∀ p ∈ processed, fs0 p ≠ some c := by
            intro p hp hpc
            obtain ⟨bkt0, hbkt0, q, hq, hqc⟩ := h.rep p hp c hpc hwge
            rw [hmap] at hbkt0
            injection hbkt0 with h''
            exact hnomatch q (h'' ▸ hq) hqc
          refine ⟨?_, h.subfs, ?_, ?_, ?_, ?_⟩
          · intro p hp
            exact h.untouched p fun hm => hp (List.mem_append_left _ hm)
          · intro k bkt' hk p hp
            have hk' : (if k = keyOf c then some (bkt ++ [cur]) else st.map k) = some bkt' := hk
            rcases ite_map_elim _ _ _ _ _ hk' with ⟨hkk, hv⟩ | ⟨-, hv⟩
            · subst hkk
              injection hv with hv'
              rw [←hv'] at hp
              rcases List.mem_append.mp hp with hold | hcl
              · obtain ⟨m1, m2, m3⟩ := h.mem _ _ hmap p hold
                exact ⟨List.mem_append_left _ m1, m2, m3⟩
              · simp at hcl
                subst hcl
                exact ⟨List.mem_append_right _ (by simp), hfs_cur, c, hc0, hwge, rfl⟩
            · obtain ⟨m1, m2, m3⟩ := h.mem k bkt' hv p hp
              exact ⟨List.mem_append_left _ m1, m2, m3⟩
          · intro k bkt' hk
            have hk' : (if k = keyOf c then some (bkt ++ [cur]) else st.map k) = some bkt' := hk
            rcases ite_map_elim _ _ _ _ _ hk' with ⟨-, hv⟩ | ⟨-, hv⟩
            · injection hv with hv'
              rw [←hv']
              rw [List.pairwise_append]
              refine ⟨h.distinct _ _ hmap, List.pairwise_singleton _ _, ?_⟩
              intro a ha b hb
              simp at hb
              subst hb
              rw [hc0]
              exact hnomatch a ha
            · exact h.distinct k bkt' hv
          · intro p hp c' hc' hw'
            rcases List.mem_append.mp hp with hp' | hp'
            · obtain ⟨bkt0, hbkt0, q, hq, hqc⟩ := h.rep p hp' c' hc' hw'
              by_cases hkk : keyOf c' = keyOf c
              · rw [hkk, hmap] at hbkt0
                injection hbkt0 with h''
                refine ⟨bkt ++ [cur], ?_, q, List.mem_append_left _ (h'' ▸ hq), hqc⟩
                show (if keyOf c' = keyOf c then some (bkt ++ [cur]) else st.map (keyOf c')) =
                  some (bkt ++ [cur])
                rw [if_pos hkk]
              · refine ⟨bkt0, ?_, q, hq, hqc⟩
                show (if keyOf c' = keyOf c then some (bkt ++ [cur]) else st.map (keyOf c')) =
                  some bkt0
                rw [if_neg hkk]
                exact hbkt0
            · simp at hp'
              subst hp'
              rw [hc0] at hc'
              injection hc' with h''
              subst h''
              refine ⟨bkt ++ [p], ?_, p, List.mem_append_right _ (by simp), hc0⟩
              show (if keyOf c = keyOf c then some (bkt ++ [p]) else st.map (keyOf c)) =
                some (bkt ++ [p])
              rw [if_pos rfl]
          · intro p hp c' hc' hw'
            rcases List.mem_append.mp hp with hp' | hp'
            · obtain ⟨x, hx⟩ := firstWith_mem_isSome fs0 c' processed p hp' hc'
              rw [firstWith_append_left fs0 c' processed [cur] x hx]
              constructor
              · intro heq
                injection heq with heq'
                exact (h.first p hp' c' hc' hw').1 (heq' ▸ hx)
              · intro hne
                exact (h.first p hp' c' hc' hw').2 fun heq => hne (hx.symm.trans heq)
            · simp at hp'
              subst hp'
              rw [hc0] at hc'
              injection hc' with h''
              subst h''
              have hnone : firstWith fs0 c processed = none :=
                firstWith_eq_none fs0 c processed hnorep
              have hext : firstWith fs0 c (processed ++ [p]) = some p := by
                rw [firstWith_none_append fs0 c processed [p] hnone]
                exact firstWith_singleton fs0 c p hc0
              rw [hext]
              constructor
              · intro _
                exact hfs_cur.trans hc0
              · intro hne
                exact absurd rfl hne
        · -- a member matches: the candidate is deleted
          have hst : scan_file okEnv st cur =
              { st with fs := fun q => if q = cur then none else st.fs q,
                        deleted := st.deleted + 1 } := by
            simp [scan_file, hkey, hmap, hread, hmatch, okEnv_removeErr]
          rw [hst]
          obtain ⟨r, hrmem, hrfs⟩ := bucketHasMatch_true_exists st.fs okEnv c bkt hmatch
          obtain ⟨hrproc, hrfseq, cr, hcr, -, -⟩ := h.mem _ _ hmap r hrmem
          have hrfs0 : fs0 r = some c := by
            rw [←hrfseq]
            exact hrfs
          refine ⟨?_, ?_, ?_, h.distinct, ?_, ?_⟩
          · intro p hp
            have hne : p ≠ cur := fun he => hp (he ▸ List.mem_append_right _ (by simp))
            show (if p = cur then none else st.fs p) = fs0 p
            rw [if_neg hne]
            exact h.untouched p fun hm => hp (List.mem_append_left _ hm)
          · intro p
            by_cases hpc : p = cur
            · right
              show (if p = cur then none else st.fs p) = none
              rw [if_pos hpc]
            · rcases h.subfs p with hs | hs
              · left
                show (if p = cur then none else st.fs p) = fs0 p
                rw [if_neg hpc]
                exact hs
              · right
                show (if p = cur then none else st.fs p) = none
                rw [if_neg hpc]
                exact hs
          · intro k bkt' hk p hp
            obtain ⟨m1, m2, m3⟩ := h.mem k bkt' hk p hp
            have hne : p ≠ cur := fun he => hcur (he ▸ m1)
            refine ⟨List.mem_append_left _ m1, ?_, m3⟩
            show (if p = cur then none else st.fs p) = fs0 p
            rw [if_neg hne]
            exact m2
          · intro p hp c' hc' hw'
            rcases List.mem_append.mp hp with hp' | hp'
            · exact h.rep p hp' c' hc' hw'
            · simp at hp'
              subst hp'
              rw [hc0] at hc'
              injection hc' with h''
              subst h''
              exact ⟨bkt, hmap, r, hrmem, hrfs0⟩
          · intro p hp c' hc' hw'
            rcases List.mem_append.mp hp with hp' | hp'
            · obtain ⟨x, hx⟩ := firstWith_mem_isSome fs0 c' processed p hp' hc'
              have hne : p ≠ cur := fun he => hcur (he ▸ hp')
              rw [firstWith_append_left fs0 c' processed [cur] x hx]
              constructor
              · intro heq
                injection heq with heq'
                have hv := (h.first p hp' c' hc' hw').1 (heq' ▸ hx)
                show (if p = cur then none else st.fs p) = some c'
                rw [if_neg hne]
                exact hv
              · intro hne'
                have hv := (h.first p hp' c' hc' hw').2 fun heq => hne' (hx.symm.trans heq)
                show (if p = cur then none else st.fs p) = none
                rw [if_neg hne]
                exact hv
            · simp at hp'
              subst hp'
              rw [hc0] at hc'
              injection hc' with h''
              subst h''
              obtain ⟨x, hx⟩ := firstWith_mem_isSome fs0 c processed r hrproc hrfs0
              have hxproc : x ∈ processed := (firstWith_some fs0 c processed x hx).1
              have hxne : x ≠ p := fun he => hcur (he ▸ hxproc)
              rw [firstWith_append_left fs0 c processed [p] x hx]
              constructor
              · intro heq
                injection heq with heq'
                exact absurd heq' hxne
              · intro _
                show (if p = p then none else st.fs p) = none
                rw [if_pos rfl]

lemma firstWith_cons_of_some (fs0 : Path → Option Content) (c : Content) (p : Path)
    (l : List Path) (hc : fs0 p = some c) : firstWith fs0 c (p :: l) = some p := by
  unfold firstWith
  exact List.find?_cons_of_pos _ (by simp [hc])

lemma inv_scanStep (fs0 : Path → Option Content) (processed : List Path) (st : State)
    (cur : Path) (hcur : cur ∉ processed) (h : Inv fs0 processed st) :
    Inv fs0 (processed ++ [cur]) (scanStep okEnv st cur) := by
  have h' := inv_scan_file fs0 processed st cur hcur h
  exact ⟨h'.untouched, h'.subfs, h'.mem, h'.distinct, h'.rep, h'.first⟩

lemma inv_init (fs0 : Path → Option Content) : Inv fs0 [] (initState fs0) := by
  refine ⟨fun p _ => rfl, fun p => Or.inl rfl, ?_, ?_, ?_, ?_⟩
  · intro k bkt hk
    cases hk
  · intro k bkt hk
    cases hk
  · intro p hp
    exact absurd hp (List.not_mem_nil p)
  · intro p hp
    exact absurd hp (List.not_mem_nil p)

lemma inv_remove_duplicates (fs0 : Path → Option Content) (l processed : List Path)
    (st : State) (hnd : (processed ++ l).Nodup) (h : Inv fs0 processed st) :
    Inv fs0 (processed ++ l) (remove_duplicates okEnv st l) := by
  induction l generalizing processed st with
  | nil => simpa [remove_duplicates_nil] using h
  | cons cur rest ih =>
      have hcur : cur ∉ processed := by
        rcases List.nodup_append.mp hnd with ⟨-, -, hdisj⟩
        intro hmem
        exact hdisj hmem (List.mem_cons_self cur rest)
      have hnd' : ((processed ++ [cur]) ++ rest).Nodup := by
        rw [List.append_assoc]
        exact hnd
      have hstep := inv_scanStep fs0 processed st cur hcur h
      have hall := ih (processed ++ [cur]) (scanStep okEnv st cur) hnd' hstep
      rw [List.append_assoc] at hall
      rw [remove_duplicates_cons]
      exact hall

lemma inv_run (fs0 : Path → Option Content) (paths : List Path) (hnd : paths.Nodup) :
    Inv fs0 paths (run okEnv fs0 paths) :=
  inv_remove_duplicates fs0 paths [] (initState fs0) hnd (inv_init fs0)

lemma inv_run_prefix (fs0 : Path → Option Content) (paths : List Path) (hnd : paths.Nodup)
    (i : Nat) :
    Inv fs0 (paths.take i) (remove_duplicates okEnv (initState fs0) (paths.take i)) :=
  inv_remove_duplicates fs0 (paths.take i) [] (initState fs0)
    ((paths.take_sublist i).nodup hnd) (inv_init fs0)

/-- C1: among byte-identical files with a key-wide content, any file
listed after another identical one is deleted, and the first-seen file
with that content survives the whole run with its content intact, no
matter how many identical files follow it. -/
theorem first_seen_survives_later_duplicate_deleted (fs0 : Path → Option Content)
    (l1 l2 l3 : List Path) (p q : Path) (c : Content)
    (hnd : (l1 ++ p :: (l2 ++ q :: l3)).Nodup)
    (hp : fs0 p = some c) (hq : fs0 q = some c) (hw : IDSIZE ≤ c.length) :
    (run okEnv fs0 (l1 ++ p :: (l2 ++ q :: l3))).fs q = none ∧
      ((∀ r ∈ l1, fs0 r ≠ some c) →
        (run okEnv fs0 (l1 ++ p :: (l2 ++ q :: l3))).fs p = some c) := by
  have inv := inv_run fs0 (l1 ++ p :: (l2 ++ q :: l3)) hnd
  have hqmem : q ∈ l1 ++ p :: (l2 ++ q :: l3) :=
    List.mem_append_right _
      (List.mem_cons_of_mem p (List.mem_append_right _ (List.mem_cons_self q l3)))
  have hpmem : p ∈ l1 ++ p :: (l2 ++ q :: l3) :=
    List.mem_append_right _ (List.mem_cons_self p _)
  obtain ⟨-, h2, hdisj⟩ := List.nodup_append.mp hnd
  have hpq : p ≠ q := by
    have hpnot := (List.nodup_cons.mp h2).1
    intro he
    apply hpnot
    rw [he]
    exact List.mem_append_right _ (List.mem_cons_self q l3)
  have hfirst_ne_q : ∀ y, firstWith fs0 c (l1 ++ p :: (l2 ++ q :: l3)) = some y → y ≠ q := by
    intro y hy
    rcases hl1 : firstWith fs0 c l1 with _ | x
    · rw [firstWith_none_append fs0 c l1 _ hl1, firstWith_cons_of_some fs0 c p _ hp] at hy
      injection hy with h''
      rw [←h'']
      exact hpq
    · rw [firstWith_append_left fs0 c l1 _ x hl1] at hy
      injection hy with h''
      have hxl1 : x ∈ l1 := (firstWith_some fs0 c l1 x hl1).1
      rw [←h'']
      intro he
      exact hdisj (he ▸ hxl1)
        (List.mem_cons_of_mem p (List.mem_append_right _ (List.mem_cons_self q l3)))
  constructor
  · refine (inv.first q hqmem c hq hw).2 ?_
    intro heq
    exact hfirst_ne_q q heq rfl
  · intro h1
    have hl1none : firstWith fs0 c l1 = none := firstWith_eq_none fs0 c l1 h1
    have hfp : firstWith fs0 c (l1 ++ p :: (l2 ++ q :: l3)) = some p := by
      rw [firstWith_none_append fs0 c l1 _ hl1none]
      exact firstWith_cons_of_some fs0 c p _ hp
    exact (inv.first p hpmem c hp hw).1 hfp

/-- Witness for C1 over two byte-identical files. -/
theorem first_seen_witness :
    (run okEnv fsTwin [0, 1]).fs 1 = none ∧ (run okEnv fsTwin [0, 1]).fs 0 = some cTwin := by
  have h := first_seen_survives_later_duplicate_deleted fsTwin [] [] [] 0 1 cTwin
    (by decide) (by decide) (by decide) (by decide)
  exact ⟨h.1, h.2 fun r hr => absurd hr (List.not_mem_nil r)⟩

/-- C2 as stated fails: when reading existing bucket member `0` errors,
its byte-identical candidate `1` is appended to the same bucket, leaving
two bucket paths whose on-disk contents are equal. -/
theorem bucket_content_clash_on_read_failure :
    (run envBadRead fsTwin [0, 1]).map 0 = some [0, 1] ∧
      (run envBadRead fsTwin [0, 1]).fs 0 = some cTwin ∧
      (run envBadRead fsTwin [0, 1]).fs 1 = some cTwin ∧
      (0 : Path) ≠ 1 := by
  refine ⟨by decide, by decide, by decide, by decide⟩

/-- C2 (amended): as long as every content read performed on existing
bucket members succeeds — in particular in a failure-free run — no two
paths stored in the same bucket have byte-identical content, at every
point of the run. -/
theorem bucket_contents_pairwise_distinct (fs0 : Path → Option Content) (paths : List Path)
    (hnd : paths.Nodup) (i : Nat) (k : ID) (bkt : List Path)
    (hk : (remove_duplicates okEnv (initState fs0) (paths.take i)).map k = some bkt)
    (p : Path) (hp : p ∈ bkt) (q : Path) (hq : q ∈ bkt) (hpq : p ≠ q)
    (cp cq : Content)
    (hcp : (remove_duplicates okEnv (initState fs0) (paths.take i)).fs p = some cp)
    (hcq : (remove_duplicates okEnv (initState fs0) (paths.take i)).fs q = some cq) :
    cp ≠ cq := by
  have inv := inv_run_prefix fs0 paths hnd i
  have hd := inv.distinct k bkt hk
  have hsym : Symmetric fun a b : Path => fs0 a ≠ fs0 b := fun a b hab he => hab he.symm
  have hne := List.Pairwise.forall hsym hd hp hq hpq
  obtain ⟨-, m2p, -⟩ := inv.mem k bkt hk p hp
  obtain ⟨-, m2q, -⟩ := inv.mem k bkt hk q hq
  rw [m2p] at hcp
  rw [m2q] at hcq
  intro he
  exact hne (by rw [hcp, hcq, he])

/-- Witness for C2 (amended) at a key collision of distinct contents. -/
theorem bucket_contents_witness :
    ([0, 1] : List Path).Nodup ∧
      (remove_duplicates okEnv (initState fsClash) ([0, 1].take 2)).map 0 = some [0, 1] ∧
      cTwin ≠ cClash :=
  ⟨by decide, by decide,
    bucket_contents_pairwise_distinct fsClash [0, 1] (by decide) 2 0 [0, 1] (by decide)
      0 (by decide) 1 (by decide) (by decide) cTwin cClash (by decide) (by decide)⟩

lemma survivors_pairwise_distinct (fs0 : Path → Option Content) (paths : List Path)
    (hnd : paths.Nodup) (p : Path) (hp : p ∈ paths) (q : Path) (hq : q ∈ paths)
    (hpq : p ≠ q) (c : Content)
    (hcp : (run okEnv fs0 paths).fs p = some c) (hwc : IDSIZE ≤ c.length) :
    (run okEnv fs0 paths).fs q ≠ some c := by
  intro hcq
  have inv := inv_run fs0 paths hnd
  have hp0 : fs0 p = some c := by
    rcases inv.subfs p with hs | hs
    · rw [←hs]
      exact hcp
    · rw [hs] at hcp
      cases hcp
  have hq0 : fs0 q = some c := by
    rcases inv.subfs q with hs | hs
    · rw [←hs]
      exact hcq
    · rw [hs] at hcq
      cases hcq
  have hfp : firstWith fs0 c paths = some p := by
    by_contra hne
    rw [(inv.first p hp c hp0 hwc).2 hne] at hcp
    cases hcp
  have hfq : firstWith fs0 c paths = some q := by
    by_contra hne
    rw [(inv.first q hq c hq0 hwc).2 hne] at hcq
    cases hcq
  rw [hfp] at hfq
  injection hfq with h''
  exact hpq h''

lemma no_delete_aux (env : Env) (fs : Path → Option Content) (l processed : List Path)
    (st : State) (hnd : (processed ++ l).Nodup)
    (hdist : ∀ a ∈ processed ++ l, ∀ b ∈ processed ++ l, a ≠ b → ∀ c, fs a = some c →
      IDSIZE ≤ c.length → fs b ≠ some c)
    (hfs : st.fs = fs)
    (hbkt : ∀ k bkt, st.map k = some bkt → ∀ p ∈ bkt, p ∈ processed) :
    (remove_duplicates env st l).deleted = st.deleted := by
  induction l generalizing processed st with
  | nil => rfl
  | cons cur rest ih =>
      have hcur : cur ∉ processed := by
        rcases List.nodup_append.mp hnd with ⟨-, -, hdisj⟩
        intro hmem
        exact hdisj hmem (List.mem_cons_self cur rest)
      have hcurL : cur ∈ processed ++ cur :: rest :=
        List.mem_append_right _ (List.mem_cons_self cur rest)
      have hstep : (scan_file env st cur).deleted = st.deleted ∧
          (scan_file env st cur).fs = fs ∧
          ∀ k bkt, (scan_file env st cur).map k = some bkt → ∀ p ∈ bkt,
            p ∈ processed ++ [cur] := by
        refine scan_file_elim
          (fun s => s.deleted = st.deleted ∧ s.fs = fs ∧
            ∀ k bkt, s.map k = some bkt → ∀ p ∈ bkt, p ∈ processed ++ [cur])
          env st cur
          ⟨rfl, hfs, fun k bkt hk p hp => List.mem_append_left _ (hbkt k bkt hk p hp)⟩
          ?_ ?_ ?_ ?_
        · intro id h1 h2
          refine ⟨rfl, hfs, ?_⟩
          intro k bkt hk p hp
          have hk' : (if k = id then some [cur] else st.map k) = some bkt := hk
          rcases ite_map_elim _ _ _ _ _ hk' with ⟨-, hv⟩ | ⟨-, hv⟩
          · injection hv with hv'
            rw [←hv'] at hp
            simp at hp
            subst hp
            exact List.mem_append_right _ (by simp)
          · exact List.mem_append_left _ (hbkt k bkt hv p hp)
        · intro id paths data h1 h2 h3 h4 h5
          exfalso
          obtain ⟨c0, hc0, hlen, -⟩ := read_id_ok_elim _ _ _ _ h1
          have hdata : st.fs cur = some data := readAll_ok_elim _ _ _ _ h3
          have hcd : c0 = data := by
            rw [hc0] at hdata
            injection hdata
          obtain ⟨old, holdmem, holdfs⟩ := bucketHasMatch_true_exists st.fs env data paths h4
          have holdproc : old ∈ processed := hbkt id paths h2 old holdmem
          have hne : cur ≠ old := fun he => hcur (he ▸ holdproc)
          refine hdist cur hcurL old (List.mem_append_left _ holdproc) hne data ?_ ?_ ?_
          · rw [←hfs]
            exact hdata
          · rw [←hcd]
            exact hlen
          · rw [←hfs]
            exact holdfs
        · intro id paths data e h1 h2 h3 h4 h5
          exact ⟨rfl, hfs, fun k bkt hk p hp => List.mem_append_left _ (hbkt k bkt hk p hp)⟩
        · intro id paths data h1 h2 h3 h4
          refine ⟨rfl, hfs, ?_⟩
          intro k bkt hk p hp
          have hk' : (if k = id then some (paths ++ [cur]) else st.map k) = some bkt := hk
          rcases ite_map_elim _ _ _ _ _ hk' with ⟨hkk, hv⟩ | ⟨-, hv⟩
          · injection hv with hv'
            rw [←hv'] at hp
            subst hkk
            rcases List.mem_append.mp hp with hold | hcl
            · exact List.mem_append_left _ (hbkt _ paths h2 p hold)
            · simp at hcl
              subst hcl
              exact List.mem_append_right _ (by simp)
          · exact List.mem_append_left _ (hbkt k bkt hv p hp)
      have hnd' : ((processed ++ [cur]) ++ rest).Nodup := by
        rw [List.append_assoc]
        exact hnd
      have hdist' : ∀ a ∈ (processed ++ [cur]) ++ rest, ∀ b ∈ (processed ++ [cur]) ++ rest,
          a ≠ b → ∀ c, fs a = some c → IDSIZE ≤ c.length → fs b ≠ some c := by
        rw [List.append_assoc]
        exact hdist
      have htail := ih (processed ++ [cur]) (scanStep env st cur) hnd' hdist'
        hstep.2.1 hstep.2.2
      rw [remove_duplicates_cons, htail]
      exact hstep.1

/-- C4: after a completed failure-free run, re-running the engine over
any duplicate-free listing of the remaining directory deletes nothing:
the second run ends with `deleted = 0` under any oracle. -/
theorem second_run_deletes_nothing (fs0 : Path → Option Content) (paths paths2 : List Path)
    (env2 : Env) (hnd : paths.Nodup) (hnd2 : paths2.Nodup)
    (hsub : ∀ p ∈ paths2, p ∈ paths) :
    (run env2 ((run okEnv fs0 paths).fs) paths2).deleted = 0 := by
  have hdist : ∀ a ∈ paths2, ∀ b ∈ paths2, a ≠ b → ∀ c,
      (run okEnv fs0 paths).fs a = some c → IDSIZE ≤ c.length →
      (run okEnv fs0 paths).fs b ≠ some c := by
    intro a ha b hb hab c hca hwc
    exact survivors_pairwise_distinct fs0 paths hnd a (hsub a ha) b (hsub b hb) hab c hca hwc
  exact no_delete_aux env2 ((run okEnv fs0 paths).fs) paths2 [] (initState _) hnd2 hdist
    rfl fun k bkt hk => by cases hk

/-- Witness for C4: the directory left by deduplicating two identical
files, listed again. -/
theorem second_run_witness :
    ([0, 1] : List Path).Nodup ∧ ([0] : List Path).Nodup ∧
      (run okEnv ((run okEnv fsTwin [0, 1]).fs) [0]).deleted = 0 :=
  ⟨by decide, by decide,
    second_run_deletes_nothing fsTwin [0, 1] [0] okEnv (by decide) (by decide) (by decide)⟩

end FileCleaner
